import Mathlib

/-!
# Verification of the `llm-chunk` text splitter

Shallow embedding of `src/chunker.ts` (functions `split`, `iterateChunks`,
`getChunk` and the inner helper `getUnits`) together with theorems settling
the specification claims.

Modelling conventions:
* JS strings are `List Char`; JS numbers used as sizes/measures are `Int`
  (the library only ever compares them with `<=`/`>`); positions and array
  indices are `Nat` exactly as in the code paths that produce them.
* The imperative `while` loops are embedded as fuel-indexed structural
  recursions; every wrapper supplies fuel that provably suffices (the
  termination claim C10 proves the fuel is inert), which keeps every
  definition kernel-computable.
* `String.prototype.trim` and the regex class `\s` are modelled on the
  ASCII whitespace characters; all inputs considered here are ASCII.
-/

namespace LlmChunk

/-- The input of `split`/`iterateChunks`/`getChunk`: a string or an array of
strings (`text: string | string[]`). -/
inductive Input where
  | str : List Char → Input
  | arr : List (List Char) → Input
deriving Repr, DecidableEq

/-- `chunkStrategy` values `"sentence" | "paragraph"`. -/
inductive ChunkStrategy where
  | sentence : ChunkStrategy
  | paragraph : ChunkStrategy
deriving Repr, DecidableEq

/-- `SplitOptions` of `chunker.ts`.  The destructuring defaults of
`iterateChunks` (`chunkSize = 512`, `chunkOverlap = 0`) are
`defaultOptions` below; `lengthFunction` and `chunkStrategy` are optional
fields. -/
structure SplitOptions where
  chunkSize : Int
  chunkOverlap : Int
  lengthFunction : Option (List Char → Int)
  chunkStrategy : Option ChunkStrategy

/-- The options value produced by calling `split` with `{}`. -/
def defaultOptions : SplitOptions := ⟨512, 0, none, none⟩

/-- The `Chunk` record of `chunker.ts`. -/
structure Chunk where
  chunk : List Char
  startIndex : Nat
  startPosition : Nat
  endIndex : Nat
  endPosition : Nat
deriving Repr, DecidableEq

/-- The transient unit record `{ unit, start, end }` built by `getUnits`
(the source field `end` is called `stop` here because `end` is a Lean
keyword). -/
structure TextUnit where
  unit : List Char
  start : Nat
  stop : Nat
deriving Repr, DecidableEq

/-- `lengthFunction ? lengthFunction : (t) => t.length` (lines 110-112 and
189 of the source). -/
def getLength (opts : SplitOptions) : List Char → Int :=
  match opts.lengthFunction with
  | some f => f
  | none => fun t => (t.length : Int)

/-- ASCII whitespace, as matched by `String.prototype.trim` and the regex
class `\s` on ASCII input. -/
def isWs (c : Char) : Bool :=
  (c == ' ') || (c == '\t') || (c == '\n') || (c == '\r') || (c == '\x0b') || (c == '\x0c')

/-- `String.prototype.trim`: strip whitespace from both ends. -/
def trim (s : List Char) : List Char :=
  ((s.dropWhile isWs).reverse.dropWhile isWs).reverse

/-- JS `text.slice(s, e)` for `0 ≤ s`, `0 ≤ e` (characters at positions
`[s, e)`, out-of-range clamped). -/
def sliceNat (l : List Char) (s e : Nat) : List Char :=
  (l.take e).drop s

/-- `Array.prototype.join(sep)`. -/
def joinWith (sep : List Char) : List (List Char) → List Char
  | [] => []
  | [x] => x
  | x :: y :: xs => x ++ sep ++ joinWith sep (y :: xs)

/-- Prepend a unit for a trimmed piece unless the trimmed text is empty
(the `if (unit) units.push(...)` guards of `getUnits`). -/
def pushIfNonempty (u : List Char) (s e : Nat) (tail : List TextUnit) : List TextUnit :=
  if u = [] then tail else ⟨u, s, e⟩ :: tail

/-- The paragraph branch of `getUnits` (lines 61-73): split on each maximal
run of two-or-more newlines (`/\n{2,}/g`); each piece between runs is
trimmed and kept when nonempty, with raw offsets `start = lastIndex`
(position after the previous run) and `end = match.index` (start of the
run), the trailing piece ending at `text.length`.

Embedded as a one-character-at-a-time scan: `rem` is the unread suffix,
`pos` the absolute position of its head, `pieceStart` the raw start of the
current piece, `acc` the reversed characters of the current piece read so
far excluding `nl` pending newline characters just read. -/
def paraScan : List Char → Nat → Nat → List Char → Nat → List TextUnit
  | [], pos, pieceStart, acc, nl =>
    if 2 ≤ nl then
      -- the text ends with a separator run: the current piece ended where
      -- the run began; the piece after the run is empty and is dropped
      pushIfNonempty (trim acc.reverse) pieceStart (pos - nl) []
    else
      -- trailing piece `text.slice(lastIndex)` (raw end = text.length)
      pushIfNonempty (trim (acc.reverse ++ List.replicate nl '\n')) pieceStart pos []
  | c :: rest, pos, pieceStart, acc, nl =>
    if c = '\n' then
      paraScan rest (pos + 1) pieceStart acc (nl + 1)
    else if 2 ≤ nl then
      -- the pending newlines form a separator run (≥ 2): close the piece
      -- at the run start `pos - nl`; the next piece starts here
      pushIfNonempty (trim acc.reverse) pieceStart (pos - nl)
        (paraScan rest (pos + 1) pos [c] 0)
    else
      -- a lone newline (or none) stays inside the current piece
      paraScan rest (pos + 1) pieceStart (c :: (List.replicate nl '\n' ++ acc)) 0

/-- `.`, `!`, `?`: the sentence terminator class `[.!?]`. -/
def isTerm (c : Char) : Bool :=
  (c == '.') || (c == '!') || (c == '?')

/-- One attempted match of `/[^.!?]+[.!?]+(?:\s+|$)/` anchored at the head
of `s`, returning the match length.  Backtracking is vacuous for this
pattern: each `+` group must be the maximal run of its class, and the final
alternative accepts either end-of-input or a maximal nonempty whitespace
run. -/
def matchSentence (s : List Char) : Option Nat :=
  let a := s.takeWhile (fun c => !(isTerm c))
  if a.length = 0 then none
  else
    let s1 := s.drop a.length
    let b := s1.takeWhile isTerm
    if b.length = 0 then none
    else
      let s2 := s1.drop b.length
      if s2.length = 0 then some (a.length + b.length)
      else
        let w := s2.takeWhile isWs
        if w.length = 0 then none else some (a.length + b.length + w.length)

/-- The sentence branch of `getUnits` (lines 75-81): repeated global
`exec`, each match trimmed into a unit with raw offsets
`[match.index, regex.lastIndex)`; positions where no match starts are
skipped.  `fuel` dominates the number of scan steps. -/
def sentenceScan : Nat → List Char → Nat → List TextUnit
  | 0, _, _ => []
  | _ + 1, [], _ => []
  | fuel + 1, c :: rest, pos =>
    match matchSentence (c :: rest) with
    | some len =>
      pushIfNonempty (trim ((c :: rest).take len)) pos (pos + len)
        (sentenceScan fuel ((c :: rest).drop len) (pos + len))
    | none => sentenceScan fuel rest (pos + 1)

/-- `getUnits(text, strategy)` (lines 59-84). -/
def getUnits (text : List Char) (strategy : ChunkStrategy) : List TextUnit :=
  match strategy with
  | .paragraph => paraScan text 0 0 [] 0
  | .sentence => sentenceScan (text.length + 1) text 0

/-! ## Character window packer (lines 188-215) -/

/-- The inner expansion loop (lines 192-199):
`while (end < length && currentLen < chunkSize) { substr = slice(start, end+1);
currentLen = length(substr); if (currentLen > chunkSize) break; end++; }`. -/
def expandEnd (fuel : Nat) (f : List Char → Int) (chunkSize : Int) (text : List Char)
    (start : Nat) : Nat → Int → Nat
  | endPos, currentLen =>
    match fuel with
    | 0 => endPos
    | fuel + 1 =>
      if endPos < text.length ∧ currentLen < chunkSize then
        let len := f (sliceNat text start (endPos + 1))
        if len > chunkSize then endPos
        else expandEnd fuel f chunkSize text start (endPos + 1) len
      else endPos

/-- The expansion loop started at `end = start`, `currentLen = 0`, with
sufficient fuel. -/
def expandEndW (f : List Char → Int) (chunkSize : Int) (text : List Char) (start : Nat) : Nat :=
  expandEnd (text.length + 1) f chunkSize text start start 0

/-- The window end actually used: the expansion result, forced to
`min(start + 1, length)` when no expansion occurred (line 200). -/
def forcedEnd (f : List Char → Int) (chunkSize : Int) (text : List Char) (start : Nat) : Nat :=
  if expandEndW f chunkSize text start = start then min (start + 1) text.length
  else expandEndW f chunkSize text start

/-- The cursor advance (lines 210-214): `start = chunkOverlap > 0 && end > start ?
Math.max(end - chunkOverlap, start + 1) : end`. -/
def nextStart (f : List Char → Int) (chunkSize chunkOverlap : Int) (text : List Char)
    (start : Nat) : Nat :=
  if chunkOverlap > 0 ∧ start < forcedEnd f chunkSize text start then
    (max ((forcedEnd f chunkSize text start : Int) - chunkOverlap) ((start : Int) + 1)).toNat
  else forcedEnd f chunkSize text start

/-- The outer character-window loop (lines 190-215). -/
def charLoop (fuel : Nat) (f : List Char → Int) (chunkSize chunkOverlap : Int)
    (text : List Char) : Nat → List Chunk
  | start =>
    match fuel with
    | 0 => []
    | fuel + 1 =>
      if start < text.length then
        let endPos := forcedEnd f chunkSize text start
        let ch : Chunk := ⟨sliceNat text start endPos, start, start, endPos - 1, endPos⟩
        if text.length ≤ endPos then [ch]
        else ch :: charLoop fuel f chunkSize chunkOverlap text
          (nextStart f chunkSize chunkOverlap text start)
      else []

/-! ## Unit window packer (lines 101-186) -/

/-- The window-building inner loop (lines 139-157), returning the collected
`chunkUnits` and the final value of `j`. -/
def buildWindow (fuel : Nat) (f : List Char → Int) (chunkSize joinerLen : Int)
    (units : List TextUnit) : Nat → List TextUnit → Int → Bool → List TextUnit × Nat
  | j, chunkUnits, currentLen, first =>
    match fuel with
    | 0 => (chunkUnits, j)
    | fuel + 1 =>
      if h : j < units.length then
        let unit := units.get ⟨j, h⟩
        let simulatedLen := currentLen + (if first then 0 else joinerLen) + f unit.unit
        if simulatedLen > chunkSize ∧ 0 < chunkUnits.length then (chunkUnits, j)
        else if simulatedLen > chunkSize then (chunkUnits ++ [unit], j + 1)
        else buildWindow fuel f chunkSize joinerLen units (j + 1) (chunkUnits ++ [unit])
          simulatedLen false
      else (chunkUnits, j)

/-- The outer unit-window loop (lines 135-174), producing `tempChunks`:
join the window with the joiner, emit unless the text is empty or equals
the previously emitted text, then advance the unit cursor. -/
def unitLoop (fuel : Nat) (f : List Char → Int) (chunkSize chunkOverlap : Int)
    (joiner : List Char) (joinerLen : Int) (units : List TextUnit) :
    Nat → Option (List Char) → List Chunk
  | i, lastChunk =>
    match fuel with
    | 0 => []
    | fuel + 1 =>
      if i < units.length then
        let bw := buildWindow (units.length + 1) f chunkSize joinerLen units i [] 0 true
        let j := bw.2
        -- `i += Math.max(1, chunkUnits.length - chunkOverlap)` or `i = j`
        let iNext :=
          if chunkOverlap > 0 ∧ 0 < bw.1.length then
            i + (max 1 ((bw.1.length : Int) - chunkOverlap)).toNat
          else j
        match bw.1 with
        | [] => unitLoop fuel f chunkSize chunkOverlap joiner joinerLen units iNext lastChunk
        | u0 :: us =>
          let chunkStr := joinWith joiner ((u0 :: us).map (·.unit))
          if chunkStr ≠ [] ∧ some chunkStr ≠ lastChunk then
            ⟨chunkStr, i, u0.start, j - 1, ((u0 :: us).getLast (List.cons_ne_nil u0 us)).stop⟩ ::
              unitLoop fuel f chunkSize chunkOverlap joiner joinerLen units iNext (some chunkStr)
          else unitLoop fuel f chunkSize chunkOverlap joiner joinerLen units iNext lastChunk
      else []

/-- The post-pass (lines 175-183): when there are at least two chunks and
the second-to-last chunk's text ends with the last chunk's text, drop the
last chunk. -/
def popTail (cs : List Chunk) : List Chunk :=
  match cs.reverse with
  | last :: secondLast :: _ =>
    if last.chunk.isSuffixOf secondLast.chunk then cs.dropLast else cs
  | _ => cs

/-- The fast-path test (lines 115-120): every unit fits on its own and the
joiner-interleaved total fits. -/
def allUnitsFit (f : List Char → Int) (chunkSize joinerLen : Int)
    (units : List TextUnit) : Bool :=
  (units.all fun u => decide (f u.unit ≤ chunkSize)) &&
    decide ((units.enum.foldl
      (fun acc p => acc + f p.2.unit + (if 0 < p.1 then joinerLen else 0)) 0) ≤ chunkSize)

/-- `joiner = chunkStrategy === "paragraph" ? "\n\n" : " "` (line 113). -/
def joinerOf : ChunkStrategy → List Char
  | .paragraph => '\n' :: '\n' :: []
  | .sentence => [' ']

/-! ## Per-text dispatch and multi-text coordinator (lines 86-218) -/

/-- Processing of one `currentText` inside the `for` loop of
`iterateChunks`: the empty-text short circuit (lines 90-100), unit mode
(lines 101-186) or character mode (lines 188-215).  `bypassUnits` is the
unit list from the `Array.isArray(text) && text !== texts` branch when that
condition held (it never does — see `iterateChunks`). -/
def processText (opts : SplitOptions) (bypassUnits : Option (List TextUnit))
    (t : List Char) : List Chunk :=
  if t.length = 0 then [⟨[], 0, 0, 0, 0⟩]
  else
    match opts.chunkStrategy with
    | some strat =>
      let unitsRaw := match bypassUnits with
        | some us => us
        | none => getUnits t strat
      let f := getLength opts
      let joiner := joinerOf strat
      let joinerLen := f joiner
      if allUnitsFit f opts.chunkSize joinerLen unitsRaw then
        unitsRaw.enum.map fun p => ⟨p.2.unit, p.1, p.2.start, p.1, p.2.stop⟩
      else
        popTail (unitLoop (unitsRaw.length + 1) f opts.chunkSize opts.chunkOverlap joiner
          joinerLen unitsRaw 0 none)
    | none => charLoop (t.length + 1) (getLength opts) opts.chunkSize opts.chunkOverlap t 0

/-- `texts = Array.isArray(text) ? text : [text]` (line 86). -/
def toTexts : Input → List (List Char)
  | .str s => [s]
  | .arr ts => ts

/-- The `for (textIdx ...)` loop (lines 88-217) with its running
`globalCharOffset` accumulator, which is updated but never read. -/
def textsLoop (opts : SplitOptions) (bypassUnits : Option (List TextUnit)) :
    List (List Char) → Int → List Chunk
  | [], _ => []
  | t :: rest, globalCharOffset =>
    processText opts bypassUnits t ++
      textsLoop opts bypassUnits rest (globalCharOffset + (t.length : Int))

/-- `iterateChunks(text, options)` (lines 50-218).  For array input,
`texts` is `text` itself, so the strict reference comparison
`text !== texts` on line 103 is always false and the element-as-one-unit
mapping branch (lines 104-108) is unreachable; the comparison is rendered
here as the (equally false) value inequality of the two aliases. -/
def iterateChunks (input : Input) (opts : SplitOptions) : List Chunk :=
  let texts := toTexts input
  let bypassUnits : Option (List TextUnit) :=
    match input with
    | .arr ts => if ts ≠ texts then some (ts.map fun u => ⟨u, 0, u.length⟩) else none
    | .str _ => none
  textsLoop opts bypassUnits texts 0

/-- `split(text, options)` (lines 37-42): `Array.from(iterateChunks(...))`. -/
def split (input : Input) (opts : SplitOptions) : List Chunk :=
  iterateChunks input opts

/-! ## `getChunk` (lines 227-236) -/

/-- `String.prototype.slice(s, e)` per ECMA-262: negative indices are taken
relative to the end, then clamped into `[0, length]`. -/
def jsSlice (l : List Char) (s e : Int) : List Char :=
  let len : Int := l.length
  let from_ := if s < 0 then max (len + s) 0 else min s len
  let to_ := if e < 0 then max (len + e) 0 else min e len
  (l.take to_.toNat).drop from_.toNat

/-- `Array.isArray(text) ? text.join("") : text` (line 232). -/
def joinedInput : Input → List Char
  | .arr ts => ts.flatten
  | .str s => s

/-- `getChunk(text, start?, end?)`: concatenate array input with
`join("")`, default `start` to 0 and `end` to the joined length, and take
`input.slice(s, e)`. -/
def getChunk (input : Input) (start? end? : Option Int) : List Char :=
  let joined := joinedInput input
  let s := start?.getD 0
  let e := end?.getD (joined.length : Int)
  jsSlice joined s e

/-! ## Definitions taken from the specification's words (for refinement
claims), clearly separated from the source embedding above -/

/-- Claim C4's description of the expansion loop: "expanding end from start
for as long as measure(text[start..end+1)) ≤ chunkSize (incrementing end
each time the condition holds)". -/
def expandSpec (fuel : Nat) (f : List Char → Int) (chunkSize : Int) (text : List Char)
    (start : Nat) : Nat → Nat
  | endPos =>
    match fuel with
    | 0 => endPos
    | fuel + 1 =>
      if endPos < text.length ∧ f (sliceNat text start (endPos + 1)) ≤ chunkSize then
        expandSpec fuel f chunkSize text start (endPos + 1)
      else endPos

/-- Claim C8's description of `getChunk`: "returns the character slice
[start, end), where ... indices beyond bounds are clamped, and if
start ≥ end after clamping the result is the empty string"; clamping an
integer index into `[0, length]`. -/
def getChunkClaimed (input : Input) (s e : Int) : List Char :=
  let joined := joinedInput input
  let len : Int := joined.length
  let s' := min (max s 0) len
  let e' := min (max e 0) len
  if s' ≥ e' then [] else (joined.take e'.toNat).drop s'.toNat

/-- Contiguous tiling of the unit ordinals `[i, n)` by the
`startIndex`/`endIndex` ranges of a chunk list: each chunk starts where the
previous one ended (+1), ranges are nondegenerate, and the last chunk ends
at `n - 1`.  In unit mode this holds exactly when neither the
duplicate-suppression guard nor the trailing post-pass dropped a window. -/
def tilesFrom (cs : List Chunk) (i n : Nat) : Bool :=
  match cs with
  | [] => i = n
  | c :: rest =>
    c.startIndex = i && c.startIndex ≤ c.endIndex && tilesFrom rest (c.endIndex + 1) n

/-- The state of the expansion loop continues from `end = e`: the loop
condition `end < length && currentLen < chunkSize` holds (where
`currentLen` is 0 at `e = start` and otherwise the measure of the last
accepted span `text[start..e)`) and the candidate span `text[start..e+1)`
does not overshoot. -/
def expandContinue (f : List Char → Int) (chunkSize : Int) (text : List Char)
    (start e : Nat) : Prop :=
  e < text.length ∧
    (if e = start then (0 : Int) else f (sliceNat text start e)) < chunkSize ∧
    f (sliceNat text start (e + 1)) ≤ chunkSize

instance (f : List Char → Int) (c : Int) (t : List Char) (s e : Nat) :
    Decidable (expandContinue f c t s e) := by
  unfold expandContinue; infer_instance

/-- Well-formedness of an extracted unit list: each unit's raw span is
nondegenerate and consecutive units do not overlap (each unit ends at or
before the next one starts). -/
def unitsSorted (us : List TextUnit) : Prop :=
  (∀ u ∈ us, u.start ≤ u.stop) ∧ List.Chain' (fun a b => a.stop ≤ b.start) us

/-! ## Claim theorems -/

/-- C1 (code bug): contrary to the documented array-input special case, a
boundary strategy on array input does *not* treat each element as a single
unit: the element `"A\n\nB"` is split by the paragraph extractor into two
chunks, not emitted as one unit spanning `[0, 4)` — because `texts`
aliases `text`, the `text !== texts` guard of the bypass branch is always
false. -/
theorem C1_array_strategy_not_bypassed :
    split (.arr ["A\n\nB".toList]) ⟨512, 0, none, some .paragraph⟩ =
      [⟨['A'], 0, 0, 0, 1⟩, ⟨['B'], 1, 3, 1, 4⟩] ∧
    split (.arr ["A\n\nB".toList]) ⟨512, 0, none, some .paragraph⟩ ≠
      [⟨"A\n\nB".toList, 0, 0, 0, 4⟩] := by
  constructor
  · rfl
  · decide

/-- C2 (counterexample): with `chunkOverlap = 0`, sentence strategy and
`chunkSize = 3`, the input `"ab. ab."` extracts two units `"ab."`, `"ab."`,
but the duplicate-suppression guard drops the second window, so joining the
emitted chunk texts with the joiner does not reconstruct the joined units. -/
theorem C2_roundtrip_cex :
    joinWith (joinerOf .sentence)
        ((split (.str "ab. ab.".toList) ⟨3, 0, none, some .sentence⟩).map (·.chunk)) =
      "ab.".toList ∧
    joinWith (joinerOf .sentence)
        ((getUnits "ab. ab.".toList .sentence).map (·.unit)) =
      "ab. ab.".toList ∧
    joinWith (joinerOf .sentence)
        ((split (.str "ab. ab.".toList) ⟨3, 0, none, some .sentence⟩).map (·.chunk)) ≠
      joinWith (joinerOf .sentence)
        ((getUnits "ab. ab.".toList .sentence).map (·.unit)) := by
  refine ⟨rfl, rfl, ?_⟩; decide

/-- The length function of the C3 counterexample. -/
def lenFunC3 : List Char → Int := fun t =>
  if t = "b".toList then 3
  else if t = "abc".toList then 2
  else if t = "cd".toList then 2
  else 1

/-- C3 (counterexample): with a non-monotone length function and
`chunkOverlap = 2`, the emitted `endPosition`s are `[3, 2, 4]` — the second
chunk's `endPosition` regresses below the first's, refuting the claim for
arbitrary length functions. -/
theorem C3_endPosition_regress_cex :
    ((split (.str "abcd".toList) ⟨2, 2, some lenFunC3, none⟩).map (·.endPosition)) = [3, 2, 4] ∧
    ¬ List.Chain' (fun a b => a ≤ b)
        ((split (.str "abcd".toList) ⟨2, 2, some lenFunC3, none⟩).map (·.endPosition)) := by
  refine ⟨rfl, fun h => ?_⟩
  have h3 : List.Chain' (fun a b => a ≤ b) [3, 2, 4] := h
  exact absurd (List.chain'_cons.mp h3).1 (by norm_num)

/-- The length function of the C4 counterexample. -/
def lenFunC4 : List Char → Int := fun t => if t = "ab".toList then 0 else 1

/-- C4 (counterexample): the claimed window construction "expand end while
measure(text[start..end+1)) ≤ chunkSize" would expand the first window of
`"ab"` (chunkSize 1, measure mapping "ab" to 0) to `end = 2`, but the code
stops at `end = 1` because the loop also exits as soon as the previously
accepted span's measure reaches `chunkSize`. -/
theorem C4_expansion_cex :
    ((split (.str "ab".toList) ⟨1, 0, some lenFunC4, none⟩).map (·.endPosition)).head? =
      some 1 ∧
    expandSpec ("ab".toList.length + 1) lenFunC4 1 "ab".toList 0 0 = 2 ∧
    ((split (.str "ab".toList) ⟨1, 0, some lenFunC4, none⟩).map (·.endPosition)).head? ≠
      some (expandSpec ("ab".toList.length + 1) lenFunC4 1 "ab".toList 0 0) := by
  refine ⟨rfl, rfl, ?_⟩; decide

/-- C5 (counterexample): with sentence strategy and `chunkOverlap = 1`, the
input `"a. a."` takes the fast path (all units fit), which performs no
duplicate suppression: the two adjacent emitted chunks have identical text
`"a."`. -/
theorem C5_adjacent_dup_cex :
    ((split (.str "a. a.".toList) ⟨512, 1, none, some .sentence⟩).map (·.chunk)) =
      ["a.".toList, "a.".toList] ∧
    ¬ List.Chain' (fun a b => a.chunk ≠ b.chunk)
        (split (.str "a. a.".toList) ⟨512, 1, none, some .sentence⟩) := by
  refine ⟨rfl, fun h => ?_⟩
  have h3 : List.Chain' (fun a b : Chunk => a.chunk ≠ b.chunk)
      [⟨"a.".toList, 0, 0, 0, 3⟩, ⟨"a.".toList, 1, 3, 1, 5⟩] := h
  exact absurd rfl (List.chain'_cons.mp h3).1

/-- C8 (counterexample): `getChunk("abc", -1)` returns `"c"` (JS slice
treats a negative start as relative to the end), not the `"abc"` that
clamping the out-of-bounds index into `[0, length]` would give. -/
theorem C8_negative_index_cex :
    getChunk (.str "abc".toList) (some (-1)) none = ['c'] ∧
    getChunkClaimed (.str "abc".toList) (-1) 3 = ['a', 'b', 'c'] ∧
    getChunk (.str "abc".toList) (some (-1)) none ≠
      getChunkClaimed (.str "abc".toList) (-1) 3 := by
  refine ⟨rfl, rfl, ?_⟩; decide

/-! ## C6: multi-text independence -/

/-- The per-text loop is the flat concatenation of the per-text results;
the running `globalCharOffset` accumulator is dead. -/
theorem textsLoop_eq_flatten (opts : SplitOptions) (bu : Option (List TextUnit)) :
    ∀ (ts : List (List Char)) (off : Int),
      textsLoop opts bu ts off = (ts.map (processText opts bu)).flatten := by
  intro ts
  induction ts with
  | nil => intro off; rfl
  | cons t rest ih => intro off; simp [textsLoop, ih]

/-- `iterateChunks` on array input: the bypass condition is false, so the
loop runs with `bypassUnits = none`. -/
theorem iterateChunks_arr (ts : List (List Char)) (opts : SplitOptions) :
    iterateChunks (.arr ts) opts = textsLoop opts none ts 0 := by
  simp [iterateChunks, toTexts]

/-- `iterateChunks` on string input. -/
theorem iterateChunks_str (t : List Char) (opts : SplitOptions) :
    iterateChunks (.str t) opts = processText opts none t := by
  simp [iterateChunks, toTexts, textsLoop]

/-- C6 (confirmed): `split` on a list input is the in-order concatenation
of the independent per-text outputs, and the internal running character
offset has no effect on the result. -/
theorem C6_multi_text_independence (ts : List (List Char)) (opts : SplitOptions) :
    split (.arr ts) opts = (ts.map fun t => split (.str t) opts).flatten ∧
    ∀ (off : Int) (bu : Option (List TextUnit)),
      textsLoop opts bu ts off = textsLoop opts bu ts 0 := by
  constructor
  · show iterateChunks _ _ = _
    rw [iterateChunks_arr, textsLoop_eq_flatten]
    simp only [split, iterateChunks_str]
  · intro off bu
    rw [textsLoop_eq_flatten, textsLoop_eq_flatten]

/-! ## C8: `getChunk` characterization -/

/-- C8 (amended): `getChunk` concatenates array input and slices with JS
semantics — indices are clamped into `[0, length]` exactly as the claim
says *after* negative indices have been taken relative to the end of the
string; `start` defaults to 0 and `end` to the joined length, and array
input is equivalent to its concatenation. -/
theorem C8_slice_spec (input : Input) (s e : Int) (e? : Option Int) :
    (getChunk input (some s) (some e) =
      getChunkClaimed input
        (if s < 0 then ((joinedInput input).length : Int) + s else s)
        (if e < 0 then ((joinedInput input).length : Int) + e else e)) ∧
    (getChunk input none e? = getChunk input (some 0) e?) ∧
    (getChunk input (some s) none =
      getChunk input (some s) (some ((joinedInput input).length : Int))) ∧
    (∀ ts : List (List Char),
      getChunk (.arr ts) (some s) (some e) = getChunk (.str ts.flatten) (some s) (some e)) := by
  refine ⟨?_, rfl, rfl, fun ts => rfl⟩
  dsimp only [getChunk, jsSlice, getChunkClaimed, Option.getD]
  set l := joinedInput input with hl
  set len : Int := (l.length : Int) with hlen
  have hlen0 : 0 ≤ len := by positivity
  have hfrom : (if s < 0 then max (len + s) 0 else min s len) =
      min (max (if s < 0 then len + s else s) 0) len := by
    split <;> omega
  have hto : (if e < 0 then max (len + e) 0 else min e len) =
      min (max (if e < 0 then len + e else e) 0) len := by
    split <;> omega
  rw [hfrom, hto]
  set s' := min (max (if s < 0 then len + s else s) 0) len with hs'
  set e' := min (max (if e < 0 then len + e else e) 0) len with he'
  by_cases hse : s' ≥ e'
  · rw [if_pos hse]
    have : (l.take e'.toNat).length ≤ s'.toNat := by
      rw [List.length_take]
      have := Int.toNat_le_toNat hse
      omega
    simpa using List.drop_eq_nil_of_le this
  · rw [if_neg hse]

/-! ## C9: degenerate inputs -/

/-- With `chunkSize ≤ 0` the expansion loop exits immediately. -/
theorem expandEnd_nonpos (f : List Char → Int) {c : Int} (t : List Char) (start : Nat)
    (hc : c ≤ 0) : ∀ fuel, expandEnd fuel f c t start start 0 = start := by
  intro fuel
  cases fuel with
  | zero => rfl
  | succ fuel =>
    simp only [expandEnd]
    rw [if_neg]
    intro h
    omega

/-- With `chunkSize ≤ 0` every window is forced to a single character. -/
theorem forcedEnd_nonpos (f : List Char → Int) {c : Int} (t : List Char) (start : Nat)
    (hc : c ≤ 0) (hs : start < t.length) : forcedEnd f c t start = start + 1 := by
  unfold forcedEnd expandEndW
  rw [expandEnd_nonpos f t start hc, if_pos rfl]
  omega

/-- With `chunkSize ≤ 0` the cursor advances by exactly one, whatever the
overlap. -/
theorem nextStart_nonpos (f : List Char → Int) {c : Int} (ov : Int) (t : List Char)
    (start : Nat) (hc : c ≤ 0) (hs : start < t.length) :
    nextStart f c ov t start = start + 1 := by
  unfold nextStart
  rw [forcedEnd_nonpos f t start hc hs]
  by_cases hov : ov > 0 ∧ start < start + 1
  · rw [if_pos hov]
    omega
  · rw [if_neg hov]

/-- With `chunkSize ≤ 0` the character loop emits one chunk per character. -/
theorem charLoop_nonpos (f : List Char → Int) {c : Int} (ov : Int) (t : List Char)
    (hc : c ≤ 0) : ∀ fuel start, t.length - start < fuel →
    charLoop fuel f c ov t start =
      (List.range' start (t.length - start)).map fun i => ⟨sliceNat t i (i + 1), i, i, i, i + 1⟩ := by
  intro fuel
  induction fuel with
  | zero => intro start h; omega
  | succ fuel ih =>
    intro start h
    simp only [charLoop]
    by_cases hs : start < t.length
    · rw [if_pos hs, forcedEnd_nonpos f t start hc hs]
      have hr : t.length - start = (t.length - (start + 1)) + 1 := by omega
      rw [hr, List.range'_succ]
      by_cases hend : t.length ≤ start + 1
      · rw [if_pos hend]
        have h0 : t.length - (start + 1) = 0 := by omega
        rw [h0]
        rfl
      · rw [if_neg hend, nextStart_nonpos f ov t start hc hs,
          ih (start + 1) (by omega)]
        rfl
    · rw [if_neg hs]
      have h0 : t.length - start = 0 := by omega
      rw [h0]
      rfl

/-- C9 (confirmed): degenerate inputs are policy, not errors — for every
options value `split("")` is one empty chunk (the empty-text short circuit
runs before any strategy dispatch), `split([])` is empty, and
`chunkSize ≤ 0` in character mode yields exactly one 1-character chunk per
character of the text. -/
theorem C9_degenerate_inputs (opts : SplitOptions) (t : List Char) :
    (split (.str []) opts = [⟨[], 0, 0, 0, 0⟩]) ∧
    (split (.arr []) opts = []) ∧
    (t ≠ [] → opts.chunkStrategy = none → opts.chunkSize ≤ 0 →
      split (.str t) opts =
        (List.range t.length).map (fun i => ⟨sliceNat t i (i + 1), i, i, i, i + 1⟩) ∧
      ∀ ch ∈ split (.str t) opts, ch.chunk.length = 1) := by
  refine ⟨rfl, rfl, fun ht hstrat hc => ?_⟩
  have hmain : split (.str t) opts =
      (List.range t.length).map (fun i => ⟨sliceNat t i (i + 1), i, i, i, i + 1⟩) := by
    show iterateChunks _ _ = _
    rw [iterateChunks_str]
    unfold processText
    rw [if_neg (by simpa using ht), hstrat,
      charLoop_nonpos (getLength opts) opts.chunkOverlap t hc (t.length + 1) 0 (by omega)]
    rw [List.range_eq_range']
    simp
  refine ⟨hmain, fun ch hch => ?_⟩
  rw [hmain] at hch
  obtain ⟨i, hi, rfl⟩ := List.mem_map.mp hch
  rw [List.mem_range] at hi
  show (sliceNat t i (i + 1)).length = 1
  unfold sliceNat
  rw [List.length_drop, List.length_take]
  omega

/-! ## C10: termination (progress and fuel sufficiency) -/

/-- The expansion loop never moves `end` backwards. -/
theorem expandEnd_ge (f : List Char → Int) (c : Int) (t : List Char) (start : Nat) :
    ∀ fuel endPos cl, endPos ≤ expandEnd fuel f c t start endPos cl := by
  intro fuel
  induction fuel with
  | zero => intro endPos cl; exact le_refl _
  | succ fuel ih =>
    intro endPos cl
    simp only [expandEnd]
    split
    · split
      · exact le_refl _
      · exact le_trans (Nat.le_succ _) (ih _ _)
    · exact le_refl _

/-- The expansion loop never moves `end` past the text length. -/
theorem expandEnd_le (f : List Char → Int) (c : Int) (t : List Char) (start : Nat) :
    ∀ fuel endPos cl, endPos ≤ t.length → expandEnd fuel f c t start endPos cl ≤ t.length := by
  intro fuel
  induction fuel with
  | zero => intro endPos cl h; exact h
  | succ fuel ih =>
    intro endPos cl h
    simp only [expandEnd]
    split
    · split
      · exact h
      · next hcond _ => exact ih _ _ (by omega)
    · exact h

/-- The emitted window end strictly exceeds its start. -/
theorem forcedEnd_gt (f : List Char → Int) (c : Int) (t : List Char) (start : Nat)
    (hs : start < t.length) : start < forcedEnd f c t start := by
  unfold forcedEnd expandEndW
  have h := expandEnd_ge f c t start (t.length + 1) start 0
  split
  · omega
  · next hne => omega

/-- The emitted window end stays within the text. -/
theorem forcedEnd_le (f : List Char → Int) (c : Int) (t : List Char) (start : Nat)
    (hs : start ≤ t.length) : forcedEnd f c t start ≤ t.length := by
  unfold forcedEnd expandEndW
  have h := expandEnd_le f c t start (t.length + 1) start 0 hs
  split
  · omega
  · exact h

/-- The advanced cursor never passes the window end. -/
theorem nextStart_le (f : List Char → Int) (c ov : Int) (t : List Char) (start : Nat)
    (hs : start < t.length) : nextStart f c ov t start ≤ forcedEnd f c t start := by
  unfold nextStart
  have h := forcedEnd_gt f c t start hs
  split
  · next hcond => omega
  · exact le_refl _

/-- Strict forward progress of the character-window cursor. -/
theorem nextStart_gt (f : List Char → Int) (c ov : Int) (t : List Char) (start : Nat)
    (hs : start < t.length) : start < nextStart f c ov t start := by
  unfold nextStart
  have h := forcedEnd_gt f c t start hs
  split
  · next hcond => omega
  · exact h

/-- Any two sufficient fuels give the character loop the same value. -/
theorem charLoop_congr (f : List Char → Int) (c ov : Int) (t : List Char) :
    ∀ fuel₁ fuel₂ start, t.length - start < fuel₁ → t.length - start < fuel₂ →
      charLoop fuel₁ f c ov t start = charLoop fuel₂ f c ov t start := by
  intro fuel₁
  induction fuel₁ with
  | zero => intro fuel₂ start h₁ h₂; omega
  | succ fuel₁ ih =>
    intro fuel₂ start h₁ h₂
    cases fuel₂ with
    | zero => omega
    | succ fuel₂ =>
      simp only [charLoop]
      by_cases hs : start < t.length
      · rw [if_pos hs, if_pos hs]
        by_cases hend : t.length ≤ forcedEnd f c t start
        · rw [if_pos hend, if_pos hend]
        · rw [if_neg hend, if_neg hend]
          have hp := nextStart_gt f c ov t start hs
          rw [ih fuel₂ _ (by omega) (by omega)]
      · rw [if_neg hs, if_neg hs]

/-- The window-building loop never moves `j` backwards. -/
theorem buildWindow_snd_ge (f : List Char → Int) (c jl : Int) (units : List TextUnit) :
    ∀ fuel j acc cl fs, j ≤ (buildWindow fuel f c jl units j acc cl fs).2 := by
  intro fuel
  induction fuel with
  | zero => intro j acc cl fs; exact le_refl _
  | succ fuel ih =>
    intro j acc cl fs
    simp only [buildWindow]
    repeat' split
    all_goals
      first
      | exact le_refl j
      | exact Nat.le_succ j
      | exact le_trans (Nat.le_succ j) (ih _ _ _ _)

/-- The window-building loop keeps `j` within the unit list. -/
theorem buildWindow_snd_le (f : List Char → Int) (c jl : Int) (units : List TextUnit) :
    ∀ fuel j acc cl fs, j ≤ units.length →
      (buildWindow fuel f c jl units j acc cl fs).2 ≤ units.length := by
  intro fuel
  induction fuel with
  | zero => intro j acc cl fs h; exact h
  | succ fuel ih =>
    intro j acc cl fs h
    simp only [buildWindow]
    by_cases hj : j < units.length
    · rw [dif_pos hj]
      repeat' split
      all_goals
        first
        | exact h
        | exact hj
        | exact ih _ _ _ _ (by omega)
    · rw [dif_neg hj]
      exact h

/-- Started on an empty accumulator inside the unit list, the window always
absorbs at least one unit: `j` strictly advances. -/
theorem buildWindow_snd_gt (f : List Char → Int) (c jl : Int) (units : List TextUnit)
    (i : Nat) (hi : i < units.length) :
    ∀ fuel, i < (buildWindow (fuel + 1) f c jl units i [] 0 true).2 := by
  intro fuel
  simp only [buildWindow]
  rw [dif_pos hi]
  have hge := buildWindow_snd_ge f c jl units fuel (i + 1)
  repeat' split
  all_goals
    first
    | exact Nat.lt_succ_self i
    | exact lt_of_lt_of_le (Nat.lt_succ_self i) (hge _ _ _)
    | simp_all

/-- The unit-cursor advance of `unitLoop`, factored out for the progress
lemma below. -/
theorem unitLoop_iNext_gt (ov : Int) (i j : Nat) (len : Nat) (hij : i < j) :
    i < (if ov > 0 ∧ 0 < len then i + (max 1 ((len : Int) - ov)).toNat else j) := by
  split
  · have : (1 : Int) ≤ max 1 ((len : Int) - ov) := le_max_left _ _
    omega
  · exact hij

/-- Any two sufficient fuels give the unit loop the same value. -/
theorem unitLoop_congr (f : List Char → Int) (c ov : Int) (joiner : List Char) (jl : Int)
    (units : List TextUnit) :
    ∀ fuel₁ fuel₂ i lc, units.length - i < fuel₁ → units.length - i < fuel₂ →
      unitLoop fuel₁ f c ov joiner jl units i lc = unitLoop fuel₂ f c ov joiner jl units i lc := by
  intro fuel₁
  induction fuel₁ with
  | zero => intro fuel₂ i lc h₁ h₂; omega
  | succ fuel₁ ih =>
    intro fuel₂ i lc h₁ h₂
    cases fuel₂ with
    | zero => omega
    | succ fuel₂ =>
      simp only [unitLoop]
      by_cases hi : i < units.length
      · rw [if_pos hi, if_pos hi]
        have hj : i < (buildWindow (units.length + 1) f c jl units i [] 0 true).2 :=
          buildWindow_snd_gt f c jl units i hi units.length
        have hnext : i < (if ov > 0 ∧
            0 < (buildWindow (units.length + 1) f c jl units i [] 0 true).1.length then
              i + (max 1 (((buildWindow (units.length + 1) f c jl units i [] 0 true).1.length : Int)
                - ov)).toNat
            else (buildWindow (units.length + 1) f c jl units i [] 0 true).2) :=
          unitLoop_iNext_gt ov i _ _ hj
        split
        · exact ih fuel₂ _ _ (by omega) (by omega)
        · split
          · rw [ih fuel₂ _ _ (by omega) (by omega)]
          · exact ih fuel₂ _ _ (by omega) (by omega)
      · rw [if_neg hi, if_neg hi]

/-- C10 (confirmed): both packing loops make strict forward progress on
every iteration — the character-window cursor strictly increases even with
large overlap, and the unit cursor strictly increases — so the fuel the
wrappers supply suffices: enlarging it never changes the output, i.e. the
loops have genuinely halted and only finitely many chunks are produced. -/
theorem C10_termination :
    (∀ (f : List Char → Int) (c ov : Int) (t : List Char) (start : Nat) (extra : Nat),
      charLoop (t.length + 1 + extra) f c ov t start = charLoop (t.length + 1) f c ov t start) ∧
    (∀ (f : List Char → Int) (c ov : Int) (joiner : List Char) (jl : Int)
      (units : List TextUnit) (i : Nat) (lc : Option (List Char)) (extra : Nat),
      unitLoop (units.length + 1 + extra) f c ov joiner jl units i lc =
        unitLoop (units.length + 1) f c ov joiner jl units i lc) ∧
    (∀ (f : List Char → Int) (c ov : Int) (t : List Char) (start : Nat),
      start < t.length → start < nextStart f c ov t start) ∧
    (∀ (f : List Char → Int) (c jl : Int) (units : List TextUnit) (i : Nat),
      i < units.length → i < (buildWindow (units.length + 1) f c jl units i [] 0 true).2) := by
  refine ⟨?_, ?_, ?_, ?_⟩
  · intro f c ov t start extra
    exact charLoop_congr f c ov t _ _ start (by omega) (by omega)
  · intro f c ov joiner jl units i lc extra
    exact unitLoop_congr f c ov joiner jl units _ _ i lc (by omega) (by omega)
  · intro f c ov t start hs
    exact nextStart_gt f c ov t start hs
  · intro f c jl units i hi
    exact buildWindow_snd_gt f c jl units i hi units.length

/-- Witness for C10 at concrete inputs. -/
theorem C10_termination_witness :
    (0 : Nat) < nextStart (fun l => (l.length : Int)) 3 2 "abcd".toList 0 ∧
    (0 : Nat) <
      (buildWindow ([(⟨['a'], 0, 1⟩ : TextUnit)].length + 1) (fun l => (l.length : Int)) 1 1
        [⟨['a'], 0, 1⟩] 0 [] 0 true).2 := by
  constructor
  · exact C10_termination.2.2.1 (fun l => (l.length : Int)) 3 2 "abcd".toList 0 (by decide)
  · exact C10_termination.2.2.2 (fun l => (l.length : Int)) 1 1 [⟨['a'], 0, 1⟩] 0 (by decide)

/-! ## C4: window construction -/

/-- Extensional characterization of the expansion loop: starting from state
`e` with the invariant value of `currentLen`, the loop returns the first
state from `e` onwards at which `expandContinue` fails, and every state
passed on the way satisfies it. -/
theorem expandEnd_charact (f : List Char → Int) (c : Int) (t : List Char) (start : Nat) :
    ∀ fuel e cl, start ≤ e → e ≤ t.length → t.length + 1 - e ≤ fuel →
      cl = (if e = start then (0 : Int) else f (sliceNat t start e)) →
      e ≤ expandEnd fuel f c t start e cl ∧
        (∀ k, e ≤ k → k < expandEnd fuel f c t start e cl → expandContinue f c t start k) ∧
        ¬ expandContinue f c t start (expandEnd fuel f c t start e cl) := by
  intro fuel
  induction fuel with
  | zero => intro e cl h1 h2 h3 h4; omega
  | succ fuel ih =>
    intro e cl h1 h2 h3 h4
    simp only [expandEnd]
    by_cases hcond : e < t.length ∧ cl < c
    · rw [if_pos hcond]
      by_cases hlen : f (sliceNat t start (e + 1)) > c
      · rw [if_pos hlen]
        refine ⟨le_refl e, fun k hk1 hk2 => absurd hk1 (by omega), fun hcont => ?_⟩
        exact absurd hcont.2.2 (by omega)
      · rw [if_neg hlen]
        have hcontE : expandContinue f c t start e := ⟨hcond.1, by rw [← h4]; exact hcond.2, by omega⟩
        obtain ⟨ih1, ih2, ih3⟩ := ih (e + 1) (f (sliceNat t start (e + 1)))
          (by omega) (by omega) (by omega) (by rw [if_neg (by omega)])
        refine ⟨by omega, fun k hk1 hk2 => ?_, ih3⟩
        rcases Nat.eq_or_lt_of_le hk1 with heq | hlt
        · exact heq ▸ hcontE
        · exact ih2 k (by omega) hk2
    · rw [if_neg hcond]
      refine ⟨le_refl e, fun k hk1 hk2 => absurd hk1 (by omega), fun hcont => ?_⟩
      exact hcond ⟨hcont.1, by rw [h4]; exact hcont.2.1⟩

/-- Every chunk the character loop emits has `startPosition` equal to the
cursor at emission time and `endPosition` computed by `forcedEnd` from it. -/
theorem charLoop_ep (f : List Char → Int) (c ov : Int) (t : List Char) :
    ∀ fuel start, ∀ ch ∈ charLoop fuel f c ov t start,
      ch.endPosition = forcedEnd f c t ch.startPosition ∧
      ch.startPosition < t.length := by
  intro fuel
  induction fuel with
  | zero => intro start ch hch; simp [charLoop] at hch
  | succ fuel ih =>
    intro start ch hch
    simp only [charLoop] at hch
    by_cases hs : start < t.length
    · rw [if_pos hs] at hch
      by_cases hend : t.length ≤ forcedEnd f c t start
      · rw [if_pos hend] at hch
        rw [List.mem_singleton] at hch
        subst hch
        exact ⟨rfl, hs⟩
      · rw [if_neg hend] at hch
        rw [List.mem_cons] at hch
        rcases hch with hch | hch
        · subst hch
          exact ⟨rfl, hs⟩
        · exact ih _ ch hch
    · rw [if_neg hs] at hch
      simp at hch

/-- C4 (amended): each emitted window's end is `forcedEnd` of its start,
where the expansion runs for as long as `expandContinue` holds — i.e. while
the candidate span still measures ≤ `chunkSize` *and* the last accepted
span measured < `chunkSize` (the loop also stops once the accepted measure
reaches `chunkSize` exactly, without probing further) — and if no expansion
occurred the end is forced to `min(start+1, length)`. -/
theorem C4_window_end_spec (f : List Char → Int) (c ov : Int) (t : List Char) (start : Nat)
    (fuel : Nat) (hs : start ≤ t.length) :
    (start ≤ expandEndW f c t start ∧
      (∀ k, start ≤ k → k < expandEndW f c t start → expandContinue f c t start k) ∧
      ¬ expandContinue f c t start (expandEndW f c t start)) ∧
    (expandEndW f c t start = start → forcedEnd f c t start = min (start + 1) t.length) ∧
    (∀ ch ∈ charLoop fuel f c ov t start,
      ch.endPosition = forcedEnd f c t ch.startPosition) := by
  refine ⟨?_, fun h => ?_, fun ch hch => (charLoop_ep f c ov t fuel start ch hch).1⟩
  · exact expandEnd_charact f c t start (t.length + 1) start 0 (le_refl _) hs (by omega)
      (by rw [if_pos rfl])
  · unfold forcedEnd
    rw [if_pos h]

/-- Witness for C4's amended window characterization at a concrete input:
the first window of `"ab"` with the default measure and `chunkSize = 1`
stops at end 1, `expandContinue` holds at 0 and fails at 1, and the first
emitted chunk ends at `forcedEnd` of its start. -/
theorem C4_window_end_spec_witness :
    expandContinue (fun l => (l.length : Int)) 1 "ab".toList 0 0 ∧
    ¬ expandContinue (fun l => (l.length : Int)) 1 "ab".toList 0 1 ∧
    (⟨['a'], 0, 0, 0, 1⟩ : Chunk).endPosition =
      forcedEnd (fun l => (l.length : Int)) 1 "ab".toList 0 := by
  have h := C4_window_end_spec (fun l => (l.length : Int)) 1 0 "ab".toList 0 3 (by decide)
  refine ⟨h.1.2.1 0 (le_refl 0) (by decide), ?_, ?_⟩
  · have h2 := h.1.2.2
    have he : expandEndW (fun l => (l.length : Int)) 1 "ab".toList 0 = 1 := by decide
    rw [he] at h2
    exact h2
  · exact h.2.2 ⟨['a'], 0, 0, 0, 1⟩ (by decide)

/-! ## C3: character-mode coverage -/

/-- With the default character-count measure and `chunkSize ≥ 1`, the
expansion loop reaches exactly `min (start + chunkSize, length)`. -/
theorem expandEnd_default (c : Int) (t : List Char) (start : Nat) (hc : 1 ≤ c) :
    ∀ fuel e, start ≤ e → e ≤ t.length → (e : Int) ≤ (start : Int) + c →
      t.length + 1 - e ≤ fuel →
      expandEnd fuel (fun l => (l.length : Int)) c t start e ((e - start : Nat) : Int) =
        min (start + c.toNat) t.length := by
  intro fuel
  induction fuel with
  | zero => intro e h1 h2 h3 h4; omega
  | succ fuel ih =>
    intro e h1 h2 h3 h4
    simp only [expandEnd]
    have hslice : ((sliceNat t start (e + 1)).length : Int) = (min (e + 1) t.length : Nat) - start := by
      unfold sliceNat
      rw [List.length_drop, List.length_take]
      omega
    by_cases hcond : e < t.length ∧ ((e - start : Nat) : Int) < c
    · rw [if_pos hcond]
      have hlen : ((sliceNat t start (e + 1)).length : Int) = ((e + 1 - start : Nat) : Int) := by
        rw [hslice]; omega
      rw [if_neg (by omega), hlen]
      exact ih (e + 1) (by omega) (by omega) (by omega) (by omega)
    · rw [if_neg hcond]
      omega

/-- With the default measure and `chunkSize ≥ 1` the emitted window end is
exactly `min (start + chunkSize, length)`. -/
theorem forcedEnd_default (c : Int) (t : List Char) (start : Nat) (hc : 1 ≤ c)
    (hs : start < t.length) :
    forcedEnd (fun l => (l.length : Int)) c t start = min (start + c.toNat) t.length := by
  unfold forcedEnd expandEndW
  have h := expandEnd_default c t start hc (t.length + 1) start (le_refl _) (by omega)
    (by omega) (by omega)
  rw [show ((start - start : Nat) : Int) = 0 by omega] at h
  rw [h, if_neg (by omega)]

/-- Every chunk the character loop emits starts at or after the cursor. -/
theorem charLoop_sp_ge (f : List Char → Int) (c ov : Int) (t : List Char) :
    ∀ fuel start, ∀ ch ∈ charLoop fuel f c ov t start, start ≤ ch.startPosition := by
  intro fuel
  induction fuel with
  | zero => intro start ch hch; simp [charLoop] at hch
  | succ fuel ih =>
    intro start ch hch
    simp only [charLoop] at hch
    by_cases hs : start < t.length
    · rw [if_pos hs] at hch
      by_cases hend : t.length ≤ forcedEnd f c t start
      · rw [if_pos hend, List.mem_singleton] at hch
        subst hch; exact le_refl _
      · rw [if_neg hend, List.mem_cons] at hch
        rcases hch with hch | hch
        · subst hch; exact le_refl _
        · have := ih _ ch hch
          have := nextStart_gt f c ov t start hs
          omega
    · rw [if_neg hs] at hch
      simp at hch

/-- At a live cursor the character loop is nonempty and its head starts at
the cursor. -/
theorem charLoop_head_sp (f : List Char → Int) (c ov : Int) (t : List Char)
    (fuel start : Nat) (hs : start < t.length) :
    ((charLoop (fuel + 1) f c ov t start).head?).map (·.startPosition) = some start := by
  simp only [charLoop]
  rw [if_pos hs]
  by_cases hend : t.length ≤ forcedEnd f c t start
  · rw [if_pos hend]; rfl
  · rw [if_neg hend]; rfl

/-- The emitted start positions never decrease (for any length function and
any overlap). -/
theorem charLoop_sp_chain (f : List Char → Int) (c ov : Int) (t : List Char) :
    ∀ fuel start,
      List.Chain' (fun a b : Chunk => a.startPosition ≤ b.startPosition)
        (charLoop fuel f c ov t start) := by
  intro fuel
  induction fuel with
  | zero => intro start; simp [charLoop]
  | succ fuel ih =>
    intro start
    simp only [charLoop]
    by_cases hs : start < t.length
    · rw [if_pos hs]
      by_cases hend : t.length ≤ forcedEnd f c t start
      · rw [if_pos hend]; simp
      · rw [if_neg hend]
        rw [List.chain'_cons']
        refine ⟨fun y hy => ?_, ih _⟩
        have hmem := List.mem_of_mem_head? hy
        have h1 := charLoop_sp_ge f c ov t fuel _ y hmem
        have h2 := nextStart_gt f c ov t start hs
        show start ≤ y.startPosition
        omega
    · rw [if_neg hs]; simp

/-- With sufficient fuel, the final emitted chunk ends exactly at the text
length. -/
theorem charLoop_last_ep (f : List Char → Int) (c ov : Int) (t : List Char) :
    ∀ fuel start, start < t.length → t.length + 1 - start ≤ fuel →
      ((charLoop fuel f c ov t start).getLast?).map (·.endPosition) = some t.length := by
  intro fuel
  induction fuel with
  | zero => intro start h1 h2; omega
  | succ fuel ih =>
    intro start h1 h2
    simp only [charLoop]
    rw [if_pos h1]
    by_cases hend : t.length ≤ forcedEnd f c t start
    · rw [if_pos hend]
      have hle := forcedEnd_le f c t start (by omega)
      simp
      omega
    · rw [if_neg hend]
      have hp := nextStart_gt f c ov t start h1
      have hpe := nextStart_le f c ov t start h1
      have hlt : nextStart f c ov t start < t.length := by omega
      have hrec := ih (nextStart f c ov t start) hlt (by omega)
      cases hne : charLoop fuel f c ov t (nextStart f c ov t start) with
      | nil => rw [hne] at hrec; simp at hrec
      | cons r0 rest =>
        rw [hne] at hrec
        rw [List.getLast?_cons_cons, hrec]

/-- With the default measure, the emitted end positions never decrease. -/
theorem charLoop_ep_chain (c ov : Int) (t : List Char) (hc : 1 ≤ c) :
    ∀ fuel start,
      List.Chain' (fun a b : Chunk => a.endPosition ≤ b.endPosition)
        (charLoop fuel (fun l => (l.length : Int)) c ov t start) := by
  intro fuel
  induction fuel with
  | zero => intro start; simp [charLoop]
  | succ fuel ih =>
    intro start
    simp only [charLoop]
    by_cases hs : start < t.length
    · rw [if_pos hs]
      by_cases hend : t.length ≤ forcedEnd (fun l => (l.length : Int)) c t start
      · rw [if_pos hend]; simp
      · rw [if_neg hend]
        rw [List.chain'_cons']
        refine ⟨fun y hy => ?_, ih _⟩
        have hmem := List.mem_of_mem_head? hy
        have h1 := charLoop_sp_ge (fun l => (l.length : Int)) c ov t fuel _ y hmem
        have h2 := nextStart_gt (fun l => (l.length : Int)) c ov t start hs
        have h3 := (charLoop_ep (fun l => (l.length : Int)) c ov t fuel _ y hmem).1
        have h4 := (charLoop_ep (fun l => (l.length : Int)) c ov t fuel _ y hmem).2
        show forcedEnd (fun l => (l.length : Int)) c t start ≤ y.endPosition
        rw [h3, forcedEnd_default c t start hc hs, forcedEnd_default c t y.startPosition hc h4]
        omega
    · rw [if_neg hs]; simp

/-- C3 (amended): for every non-empty text, `chunkSize ≥ 1`, every length
function and every overlap, the first chunk starts at position 0, the last
chunk ends at the text length, and start positions never decrease; end
positions also never decrease when the length function is the default
character count (a non-monotone custom measure can make them regress —
see the counterexample). -/
theorem C3_char_mode_coverage (t : List Char) (opts : SplitOptions) (ht : t ≠ [])
    (hc : 1 ≤ opts.chunkSize) (hstrat : opts.chunkStrategy = none) :
    ((split (.str t) opts).head?).map (·.startPosition) = some 0 ∧
    ((split (.str t) opts).getLast?).map (·.endPosition) = some t.length ∧
    List.Chain' (fun a b : Chunk => a.startPosition ≤ b.startPosition) (split (.str t) opts) ∧
    (opts.lengthFunction = none →
      List.Chain' (fun a b : Chunk => a.endPosition ≤ b.endPosition) (split (.str t) opts)) := by
  have hlen : 0 < t.length := List.length_pos.mpr ht
  have hsplit : split (.str t) opts =
      charLoop (t.length + 1) (getLength opts) opts.chunkSize opts.chunkOverlap t 0 := by
    show iterateChunks _ _ = _
    rw [iterateChunks_str]
    unfold processText
    rw [if_neg (by omega), hstrat]
  refine ⟨?_, ?_, ?_, fun hdefault => ?_⟩
  · rw [hsplit]
    exact charLoop_head_sp (getLength opts) opts.chunkSize opts.chunkOverlap t t.length 0 hlen
  · rw [hsplit]
    exact charLoop_last_ep (getLength opts) opts.chunkSize opts.chunkOverlap t (t.length + 1) 0
      hlen (by omega)
  · rw [hsplit]
    exact charLoop_sp_chain (getLength opts) opts.chunkSize opts.chunkOverlap t (t.length + 1) 0
  · rw [hsplit]
    have hdf : getLength opts = fun l => (l.length : Int) := by
      unfold getLength
      rw [hdefault]
    rw [hdf]
    exact charLoop_ep_chain opts.chunkSize opts.chunkOverlap t hc (t.length + 1) 0

/-- Witness for C3 at a concrete input: `"abcde"` with `chunkSize = 2`. -/
theorem C3_char_mode_coverage_witness :
    ((split (.str "abcde".toList) ⟨2, 0, none, none⟩).head?).map (·.startPosition) = some 0 ∧
    ((split (.str "abcde".toList) ⟨2, 0, none, none⟩).getLast?).map (·.endPosition) = some 5 ∧
    List.Chain' (fun a b : Chunk => a.endPosition ≤ b.endPosition)
      (split (.str "abcde".toList) ⟨2, 0, none, none⟩) := by
  have h := C3_char_mode_coverage "abcde".toList ⟨2, 0, none, none⟩ (by decide) (by decide) rfl
  exact ⟨h.1, h.2.1, h.2.2.2 rfl⟩

/-- Witness for C9 at a concrete input: `chunkSize = -1` on `"ab"`. -/
theorem C9_degenerate_inputs_witness :
    split (.str "ab".toList) ⟨-1, 5, none, none⟩ =
      (List.range ("ab".toList).length).map
        (fun i => ⟨sliceNat "ab".toList i (i + 1), i, i, i, i + 1⟩) :=
  ((C9_degenerate_inputs ⟨-1, 5, none, none⟩ "ab".toList).2.2 (by decide) rfl (by decide)).1

/-! ## Extractor well-formedness (for C7, C2, C5) -/

/-- The paragraph scan produces units lying beyond the current piece start,
with nondegenerate, mutually ordered spans.  The hypothesis is the scan
invariant relating the absolute position to the piece state. -/
theorem paraScan_props :
    ∀ (rem : List Char) (pos ps : Nat) (acc : List Char) (nl : Nat),
      ps + acc.length + nl = pos →
      (∀ u ∈ paraScan rem pos ps acc nl, ps ≤ u.start ∧ u.start ≤ u.stop) ∧
      List.Chain' (fun a b => a.stop ≤ b.start) (paraScan rem pos ps acc nl) := by
  intro rem
  induction rem with
  | nil =>
    intro pos ps acc nl hinv
    simp only [paraScan]
    by_cases hnl : 2 ≤ nl
    · rw [if_pos hnl]
      unfold pushIfNonempty
      split
      · exact ⟨by simp, by simp⟩
      · refine ⟨fun u hu => ?_, by simp⟩
        rw [List.mem_singleton] at hu
        subst hu
        refine ⟨le_refl _, ?_⟩
        show ps ≤ pos - nl
        omega
    · rw [if_neg hnl]
      unfold pushIfNonempty
      split
      · exact ⟨by simp, by simp⟩
      · refine ⟨fun u hu => ?_, by simp⟩
        rw [List.mem_singleton] at hu
        subst hu
        refine ⟨le_refl _, ?_⟩
        show ps ≤ pos
        omega
  | cons c rest ih =>
    intro pos ps acc nl hinv
    simp only [paraScan]
    by_cases hc : c = '\n'
    · rw [if_pos hc]
      exact ih (pos + 1) ps acc (nl + 1) (by omega)
    · rw [if_neg hc]
      by_cases hnl : 2 ≤ nl
      · rw [if_pos hnl]
        obtain ⟨ihm, ihc⟩ := ih (pos + 1) pos [c] 0 (by simp)
        unfold pushIfNonempty
        split
        · refine ⟨fun u hu => ?_, ihc⟩
          have := ihm u hu
          exact ⟨by omega, this.2⟩
        · refine ⟨fun u hu => ?_, ?_⟩
          · rw [List.mem_cons] at hu
            rcases hu with hu | hu
            · subst hu
              refine ⟨le_refl _, ?_⟩
              show ps ≤ pos - nl
              omega
            · have := ihm u hu
              exact ⟨by omega, this.2⟩
          · rw [List.chain'_cons']
            refine ⟨fun y hy => ?_, ihc⟩
            have hmem := List.mem_of_mem_head? hy
            have := ihm y hmem
            show (pos - nl : Nat) ≤ y.start
            omega
      · rw [if_neg hnl]
        refine ih (pos + 1) ps (c :: (List.replicate nl '\n' ++ acc)) 0 ?_
        simp only [List.length_cons, List.length_append, List.length_replicate]
        omega

/-- `takeWhile` never lengthens a list. -/
theorem takeWhile_length_le {α : Type} (p : α → Bool) :
    ∀ s : List α, (s.takeWhile p).length ≤ s.length := by
  intro s
  induction s with
  | nil => simp
  | cons c rest ih =>
    rw [List.takeWhile_cons]
    split
    · simpa using ih
    · simp

/-- An anchored sentence match is nonempty and bounded by the suffix. -/
theorem matchSentence_bounds (s : List Char) (len : Nat) (h : matchSentence s = some len) :
    0 < len ∧ len ≤ s.length := by
  simp only [matchSentence] at h
  generalize ha : s.takeWhile (fun c => !(isTerm c)) = a at h
  generalize hb : (s.drop a.length).takeWhile isTerm = b at h
  generalize hw : ((s.drop a.length).drop b.length).takeWhile isWs = w at h
  have hal : a.length ≤ s.length := by
    rw [← ha]; exact takeWhile_length_le _ s
  have hbl : b.length ≤ (s.drop a.length).length := by
    rw [← hb]; exact takeWhile_length_le _ _
  have hwl : w.length ≤ ((s.drop a.length).drop b.length).length := by
    rw [← hw]; exact takeWhile_length_le _ _
  rw [List.length_drop] at hbl
  rw [List.length_drop, List.length_drop] at hwl
  split at h
  · exact absurd h (by simp)
  · split at h
    · exact absurd h (by simp)
    · split at h
      · next h1 h2 h3 =>
        rw [List.length_drop, List.length_drop] at h3
        have := Option.some_injective _ h
        omega
      · split at h
        · exact absurd h (by simp)
        · next h1 h2 h3 h4 =>
          have := Option.some_injective _ h
          omega

/-- The sentence scan produces units at or after the scan position, with
nondegenerate, mutually ordered spans. -/
theorem sentenceScan_props :
    ∀ (fuel : Nat) (rem : List Char) (pos : Nat),
      (∀ u ∈ sentenceScan fuel rem pos, pos ≤ u.start ∧ u.start ≤ u.stop) ∧
      List.Chain' (fun a b => a.stop ≤ b.start) (sentenceScan fuel rem pos) := by
  intro fuel
  induction fuel with
  | zero => intro rem pos; simp [sentenceScan]
  | succ fuel ih =>
    intro rem pos
    cases rem with
    | nil => simp [sentenceScan]
    | cons c rest =>
      cases hm : matchSentence (c :: rest) with
      | none =>
        simp only [sentenceScan, hm]
        obtain ⟨ihm, ihc⟩ := ih rest (pos + 1)
        refine ⟨fun u hu => ?_, ihc⟩
        have := ihm u hu
        exact ⟨by omega, this.2⟩
      | some len =>
        simp only [sentenceScan, hm]
        obtain ⟨ihm, ihc⟩ := ih ((c :: rest).drop len) (pos + len)
        unfold pushIfNonempty
        split
        · refine ⟨fun u hu => ?_, ihc⟩
          have := ihm u hu
          exact ⟨by omega, this.2⟩
        · refine ⟨fun u hu => ?_, ?_⟩
          · rw [List.mem_cons] at hu
            rcases hu with hu | hu
            · subst hu
              exact ⟨le_refl _, by simp⟩
            · have := ihm u hu
              exact ⟨by omega, this.2⟩
          · rw [List.chain'_cons']
            refine ⟨fun y hy => ?_, ihc⟩
            have hmem := List.mem_of_mem_head? hy
            have := ihm y hmem
            show pos + len ≤ y.start
            omega

/-- The units extracted from a single text are well formed. -/
theorem getUnits_sorted (t : List Char) (strat : ChunkStrategy) :
    unitsSorted (getUnits t strat) := by
  cases strat with
  | paragraph =>
    obtain ⟨hm, hc⟩ := paraScan_props t 0 0 [] 0 rfl
    exact ⟨fun u hu => (hm u hu).2, hc⟩
  | sentence =>
    obtain ⟨hm, hc⟩ := sentenceScan_props (t.length + 1) t 0
    exact ⟨fun u hu => (hm u hu).2, hc⟩

/-! ## Window characterization (for C7, C2, C5) -/

/-- Taking one element of a live suffix yields the pointed element. -/
theorem take_one_drop {α : Type} (l : List α) (j : Nat) (hj : j < l.length) :
    (l.drop j).take 1 = [l[j]] := by
  rw [List.drop_eq_getElem_cons hj]
  rfl

/-- Append/slice arithmetic used to peel one unit off a window slice. -/
theorem take_sub_cons (u : TextUnit) (l acc : List TextUnit) (k j : Nat) (h : j < k) :
    (acc ++ [u]) ++ l.take (k - (j + 1)) = acc ++ (u :: l).take (k - j) := by
  have hk : k - j = (k - (j + 1)) + 1 := by omega
  rw [hk, List.take_succ_cons, List.append_assoc]
  rfl

/-- The window-building loop collects exactly the contiguous slice of units
from its starting cursor to its final cursor, appended to its accumulator. -/
theorem buildWindow_fst (f : List Char → Int) (c jl : Int) (units : List TextUnit) :
    ∀ fuel j acc cl fs,
      (buildWindow fuel f c jl units j acc cl fs).1 =
        acc ++ (units.drop j).take ((buildWindow fuel f c jl units j acc cl fs).2 - j) := by
  intro fuel
  induction fuel with
  | zero => intro j acc cl fs; simp [buildWindow, Nat.sub_self]
  | succ fuel ih =>
    intro j acc cl fs
    simp only [buildWindow]
    by_cases hj : j < units.length
    · rw [dif_pos hj]
      have hdrop : units.drop j = units[j] :: units.drop (j + 1) :=
        List.drop_eq_getElem_cons hj
      cases fs <;>
        · repeat' split
          all_goals
            first
            | (simp [Nat.sub_self]; done)
            | (simp [Nat.add_sub_cancel_left, take_one_drop units j hj]; done)
            | (rw [ih, hdrop]
               exact take_sub_cons _ _ _ _ _ (buildWindow_snd_ge f c jl units fuel _ _ _ _))
    · rw [dif_neg hj]
      simp [Nat.sub_self]

/-- In a well-formed unit list, the first unit starts at or before the last
unit ends. -/
theorem sorted_head_le_getLast :
    ∀ (l : List TextUnit) (hs : unitsSorted l) (h : l ≠ []),
      (l.head h).start ≤ (l.getLast h).stop := by
  intro l
  induction l with
  | nil => intro _hs h; contradiction
  | cons x rest ih =>
    intro hs h
    cases rest with
    | nil => exact hs.1 x (List.mem_singleton.mpr rfl)
    | cons y rest' =>
      have hxy : x.stop ≤ y.start := (List.chain'_cons.mp hs.2).1
      have hx : x.start ≤ x.stop := hs.1 x (List.mem_cons_self _ _)
      have hrest : unitsSorted (y :: rest') :=
        ⟨fun u hu => hs.1 u (List.mem_cons_of_mem _ hu), (List.chain'_cons.mp hs.2).2⟩
      have ihr := ih hrest (List.cons_ne_nil _ _)
      rw [List.head_cons] at ihr ⊢
      rw [List.getLast_cons (List.cons_ne_nil _ _)]
      omega

/-- A `take` of a `drop` is a contiguous sublist. -/
theorem take_drop_contig {α : Type} (l : List α) (n m : Nat) :
    List.IsInfix ((l.drop n).take m) l :=
  ⟨l.take n, (l.drop n).drop m, by
    rw [List.append_assoc, List.take_append_drop, List.take_append_drop]⟩

/-- Well-formedness restricts to contiguous sublists. -/
theorem unitsSorted_contig {l : List TextUnit} (hs : unitsSorted l) (n m : Nat) :
    unitsSorted ((l.drop n).take m) :=
  ⟨fun u hu => hs.1 u ((take_drop_contig l n m).subset hu), (hs.2.drop n).take m⟩

/-- Every chunk emitted by the unit loop carries the join of a contiguous,
in-range unit slice `[startIndex, endIndex]`, and (in a well-formed unit
list) a nondegenerate position span. -/
theorem unitLoop_members (f : List Char → Int) (c ov : Int) (joiner : List Char) (jl : Int)
    (units : List TextUnit) (hs : unitsSorted units) :
    ∀ fuel i lc, ∀ ch ∈ unitLoop fuel f c ov joiner jl units i lc,
      ch.chunk = joinWith joiner
        (((units.drop ch.startIndex).take (ch.endIndex + 1 - ch.startIndex)).map (·.unit)) ∧
      ch.startIndex ≤ ch.endIndex ∧ ch.endIndex < units.length ∧
      ch.startPosition ≤ ch.endPosition := by
  intro fuel
  induction fuel with
  | zero => intro i lc ch hch; simp [unitLoop] at hch
  | succ fuel ih =>
    intro i lc ch hch
    simp only [unitLoop] at hch
    by_cases hi : i < units.length
    · rw [if_pos hi] at hch
      have hfst := buildWindow_fst f c jl units (units.length + 1) i [] 0 true
      have hgt : i < (buildWindow (units.length + 1) f c jl units i [] 0 true).2 :=
        buildWindow_snd_gt f c jl units i hi units.length
      have hle : (buildWindow (units.length + 1) f c jl units i [] 0 true).2 ≤ units.length :=
        buildWindow_snd_le f c jl units (units.length + 1) i [] 0 true (by omega)
      rcases hbw : (buildWindow (units.length + 1) f c jl units i [] 0 true).1 with _ | ⟨u0, us⟩
      · simp only [hbw] at hch
        exact ih _ _ ch hch
      · simp only [hbw] at hch
        rw [hbw] at hfst
        split at hch
        · rw [List.mem_cons] at hch
          rcases hch with hch | hch
          · subst hch
            have hslice : u0 :: us =
                (units.drop i).take
                  ((buildWindow (units.length + 1) f c jl units i [] 0 true).2 - i) := by
              simpa using hfst
            refine ⟨?_,
              show i ≤ (buildWindow (units.length + 1) f c jl units i [] 0 true).2 - 1 by omega,
              show (buildWindow (units.length + 1) f c jl units i [] 0 true).2 - 1 <
                units.length by omega, ?_⟩
            · show joinWith joiner ((u0 :: us).map (·.unit)) = _
              have harith :
                  (buildWindow (units.length + 1) f c jl units i [] 0 true).2 - 1 + 1 - i =
                    (buildWindow (units.length + 1) f c jl units i [] 0 true).2 - i := by
                omega
              rw [show (⟨joinWith joiner ((u0 :: us).map (·.unit)), i, u0.start, _, _⟩ :
                  Chunk).startIndex = i from rfl]
              rw [harith, ← hslice]
            · show u0.start ≤ ((u0 :: us).getLast (List.cons_ne_nil u0 us)).stop
              have hsorted : unitsSorted (u0 :: us) := by
                rw [hslice]
                exact unitsSorted_contig hs i _
              have := sorted_head_le_getLast (u0 :: us) hsorted (List.cons_ne_nil u0 us)
              rw [List.head_cons] at this
              exact this
          · exact ih _ _ ch hch
        · exact ih _ _ ch hch
    · rw [if_neg hi] at hch
      simp at hch

/-- The post-pass only ever removes a chunk. -/
theorem popTail_subset (cs : List Chunk) : ∀ ch ∈ popTail cs, ch ∈ cs := by
  intro ch hch
  unfold popTail at hch
  rcases hrev : cs.reverse with _ | ⟨a, rest⟩
  · simp only [hrev] at hch
    exact hch
  · rcases rest with _ | ⟨b, rest'⟩
    · simp only [hrev] at hch
      exact hch
    · simp only [hrev] at hch
      split at hch
      · exact List.Sublist.subset (List.dropLast_sublist _) hch
      · exact hch

/-- Per-text position invariant: every emitted chunk has
`startPosition ≤ endPosition`. -/
theorem processText_sp_le_ep (opts : SplitOptions) (t : List Char) :
    ∀ ch ∈ processText opts none t, ch.startPosition ≤ ch.endPosition := by
  intro ch hch
  unfold processText at hch
  by_cases ht : t.length = 0
  · rw [if_pos ht, List.mem_singleton] at hch
    subst hch
    exact le_refl _
  · rw [if_neg ht] at hch
    cases hstrat : opts.chunkStrategy with
    | none =>
      rw [hstrat] at hch
      dsimp only at hch
      have h1 := (charLoop_ep (getLength opts) opts.chunkSize opts.chunkOverlap t
        (t.length + 1) 0 ch hch).1
      have h2 := (charLoop_ep (getLength opts) opts.chunkSize opts.chunkOverlap t
        (t.length + 1) 0 ch hch).2
      have := forcedEnd_gt (getLength opts) opts.chunkSize t ch.startPosition h2
      omega
    | some strat =>
      rw [hstrat] at hch
      dsimp only at hch
      have hsorted := getUnits_sorted t strat
      split at hch
      · rw [List.mem_map] at hch
        obtain ⟨⟨i, u⟩, hmem, hcheq⟩ := hch
        rw [List.mem_enum_iff_getElem?] at hmem
        have humem : u ∈ getUnits t strat := by
          have := List.getElem?_mem hmem
          exact this
        subst hcheq
        exact hsorted.1 u humem
      · have hpop := popTail_subset _ ch hch
        exact (unitLoop_members (getLength opts) opts.chunkSize opts.chunkOverlap
          (joinerOf strat) (getLength opts (joinerOf strat)) (getUnits t strat) hsorted
          _ 0 none ch hpop).2.2.2

/-- `split` always reduces to per-text processing with no bypass units. -/
theorem split_eq_flatten (input : Input) (opts : SplitOptions) :
    split input opts = ((toTexts input).map (processText opts none)).flatten := by
  cases input with
  | str t =>
    show iterateChunks _ _ = _
    rw [iterateChunks_str]
    simp [toTexts]
  | arr ts =>
    show iterateChunks _ _ = _
    rw [iterateChunks_arr, textsLoop_eq_flatten]
    rfl

/-- C7 (confirmed): every chunk emitted by `split` satisfies
`endPosition ≥ startPosition`, and an empty input text produces the single
chunk with both positions 0. -/
theorem C7_position_invariant (input : Input) (opts : SplitOptions) :
    (∀ ch ∈ split input opts, ch.startPosition ≤ ch.endPosition) ∧
    split (.str []) opts = [⟨[], 0, 0, 0, 0⟩] := by
  refine ⟨fun ch hch => ?_, rfl⟩
  rw [split_eq_flatten] at hch
  rw [List.mem_flatten] at hch
  obtain ⟨l, hl, hchl⟩ := hch
  rw [List.mem_map] at hl
  obtain ⟨t, _, rfl⟩ := hl
  exact processText_sp_le_ep opts t ch hchl

/-- Witness for C7 at a concrete input. -/
theorem C7_position_invariant_witness :
    (⟨"ab".toList, 0, 0, 1, 2⟩ : Chunk).startPosition ≤
      (⟨"ab".toList, 0, 0, 1, 2⟩ : Chunk).endPosition :=
  (C7_position_invariant (.str "abc".toList) ⟨2, 0, none, none⟩).1
    ⟨"ab".toList, 0, 0, 1, 2⟩ (by decide)

/-! ## C2: unit-mode round trip -/

/-- Joining across a split of nonempty groups inserts one separator. -/
theorem joinWith_append (sep : List Char) :
    ∀ (A B : List (List Char)), A ≠ [] → B ≠ [] →
      joinWith sep (A ++ B) = joinWith sep A ++ sep ++ joinWith sep B := by
  intro A
  induction A with
  | nil => intro B hA hB; contradiction
  | cons x A' ih =>
    intro B hA hB
    cases A' with
    | nil =>
      cases B with
      | nil => contradiction
      | cons b B' => rfl
    | cons y A'' =>
      show joinWith sep (x :: y :: (A'' ++ B)) = _
      have := ih B (List.cons_ne_nil y A'') hB
      rw [show joinWith sep (x :: y :: (A'' ++ B)) =
          x ++ sep ++ joinWith sep (y :: (A'' ++ B)) from rfl]
      rw [show (y :: (A'' ++ B)) = (y :: A'') ++ B from rfl, this]
      rw [show joinWith sep (x :: y :: A'') = x ++ sep ++ joinWith sep (y :: A'') from rfl]
      simp [List.append_assoc]

/-- A tiling never starts past its right end. -/
theorem tilesFrom_le : ∀ (cs : List Chunk) (i n : Nat), tilesFrom cs i n = true → i ≤ n := by
  intro cs
  induction cs with
  | nil =>
    intro i n h
    simp only [tilesFrom, decide_eq_true_eq] at h
    omega
  | cons c rest ih =>
    intro i n h
    simp only [tilesFrom, Bool.and_eq_true, decide_eq_true_eq] at h
    have := ih (c.endIndex + 1) n h.2
    omega

/-- Joining the chunk texts of a tiling of `[i, units.length)` by
unit-slice chunks reconstructs the joined units from `i` on. -/
theorem tiles_join (joiner : List Char) (units : List TextUnit) :
    ∀ (cs : List Chunk) (i : Nat),
      (∀ ch ∈ cs,
        ch.chunk = joinWith joiner
          (((units.drop ch.startIndex).take (ch.endIndex + 1 - ch.startIndex)).map (·.unit)) ∧
        ch.startIndex ≤ ch.endIndex ∧ ch.endIndex < units.length) →
      tilesFrom cs i units.length = true →
      joinWith joiner (cs.map (·.chunk)) = joinWith joiner ((units.drop i).map (·.unit)) := by
  intro cs
  induction cs with
  | nil =>
    intro i hP h
    simp only [tilesFrom, decide_eq_true_eq] at h
    rw [h, List.drop_length]
    rfl
  | cons ch rest ih =>
    intro i hP h
    simp only [tilesFrom, Bool.and_eq_true, decide_eq_true_eq] at h
    obtain ⟨⟨hsi, hsiei⟩, htail⟩ := h
    obtain ⟨hchunk, -, heilt⟩ := hP ch (List.mem_cons_self _ _)
    subst hsi
    cases rest with
    | nil =>
      simp only [tilesFrom, decide_eq_true_eq] at htail
      show joinWith joiner [ch.chunk] = _
      rw [show joinWith joiner [ch.chunk] = ch.chunk from rfl, hchunk]
      congr 1
      rw [htail]
      congr 1
      apply List.take_of_length_le
      rw [List.length_drop]
    | cons r rest' =>
      have hrtile : r.startIndex = ch.endIndex + 1 ∧ r.startIndex ≤ r.endIndex := by
        simp only [tilesFrom, Bool.and_eq_true, decide_eq_true_eq] at htail
        exact ⟨htail.1.1, htail.1.2⟩
      obtain ⟨-, -, hrelt⟩ := hP r (List.mem_cons_of_mem _ (List.mem_cons_self _ _))
      have hei1 : ch.endIndex + 1 < units.length := by omega
      have hilt : ch.startIndex < units.length := by omega
      have hsplit : units.drop ch.startIndex =
          (units.drop ch.startIndex).take (ch.endIndex + 1 - ch.startIndex) ++
            units.drop (ch.endIndex + 1) := by
        conv_lhs => rw [← List.take_append_drop (ch.endIndex + 1 - ch.startIndex)
          (units.drop ch.startIndex)]
        congr 1
        rw [List.drop_drop]
        congr 1
        omega
      have hA : (((units.drop ch.startIndex).take
          (ch.endIndex + 1 - ch.startIndex)).map (·.unit)) ≠ [] := by
        apply List.ne_nil_of_length_pos
        rw [List.length_map, List.length_take, List.length_drop]
        omega
      have hB : ((units.drop (ch.endIndex + 1)).map (·.unit)) ≠ [] := by
        apply List.ne_nil_of_length_pos
        rw [List.length_map, List.length_drop]
        omega
      have hPtail : ∀ c ∈ (r :: rest'),
          c.chunk = joinWith joiner
            (((units.drop c.startIndex).take (c.endIndex + 1 - c.startIndex)).map (·.unit)) ∧
          c.startIndex ≤ c.endIndex ∧ c.endIndex < units.length :=
        fun c hc => hP c (List.mem_cons_of_mem _ hc)
      have hih := ih (ch.endIndex + 1) hPtail htail
      show joinWith joiner (ch.chunk :: (r :: rest').map (·.chunk)) = _
      rw [show joinWith joiner (ch.chunk :: (r :: rest').map (·.chunk)) =
          ch.chunk ++ joiner ++ joinWith joiner ((r :: rest').map (·.chunk)) from rfl]
      rw [hih, hsplit, List.map_append, joinWith_append joiner _ _ hA hB, hchunk]

/-- Every chunk of a strategy-set `processText` run is the joiner-join of
the contiguous unit slice `[startIndex, endIndex]`, with in-range indices. -/
theorem processText_members_P (opts : SplitOptions) (t : List Char) (strat : ChunkStrategy)
    (hstrat : opts.chunkStrategy = some strat) (ht : ¬ t.length = 0) :
    ∀ ch ∈ processText opts none t,
      ch.chunk = joinWith (joinerOf strat)
        ((((getUnits t strat).drop ch.startIndex).take
          (ch.endIndex + 1 - ch.startIndex)).map (·.unit)) ∧
      ch.startIndex ≤ ch.endIndex ∧ ch.endIndex < (getUnits t strat).length := by
  intro ch hch
  unfold processText at hch
  rw [if_neg ht, hstrat] at hch
  dsimp only at hch
  split at hch
  · rw [List.mem_map] at hch
    obtain ⟨⟨i, u⟩, hmem, rfl⟩ := hch
    rw [List.mem_enum_iff_getElem?] at hmem
    have hi : i < (getUnits t strat).length := by
      rw [List.getElem?_eq_some] at hmem
      exact hmem.1
    have hu : (getUnits t strat)[i] = u := by
      rw [List.getElem?_eq_getElem hi] at hmem
      exact Option.some_injective _ hmem
    refine ⟨?_, le_refl _, hi⟩
    show u.unit = _
    rw [show i + 1 - i = 1 from by omega, take_one_drop _ i hi, hu]
    rfl
  · have hpop := popTail_subset _ ch hch
    have h := unitLoop_members (getLength opts) opts.chunkSize opts.chunkOverlap
      (joinerOf strat) (getLength opts (joinerOf strat)) (getUnits t strat)
      (getUnits_sorted t strat) _ 0 none ch hpop
    exact ⟨h.1, h.2.1, h.2.2.1⟩

/-- C2 (amended): with a boundary strategy and `chunkOverlap = 0`, whenever
the emitted chunks tile the unit ordinals contiguously (`tilesFrom` — i.e.
no window was dropped by the duplicate-suppression guard or the trailing
post-pass), joining the chunk texts with the strategy joiner reconstructs
the joined extracted units.  The suppression guard and post-pass can break
the tiling and hence the round trip (see the counterexample). -/
theorem C2_roundtrip_tiled (t : List Char) (opts : SplitOptions) (strat : ChunkStrategy)
    (hstrat : opts.chunkStrategy = some strat) (_hov : opts.chunkOverlap = 0)
    (htiles : tilesFrom (split (.str t) opts) 0 (getUnits t strat).length = true) :
    joinWith (joinerOf strat) ((split (.str t) opts).map (·.chunk)) =
      joinWith (joinerOf strat) ((getUnits t strat).map (·.unit)) := by
  have hsplit : split (.str t) opts = processText opts none t := iterateChunks_str t opts
  by_cases ht : t.length = 0
  · have ht' : t = [] := List.length_eq_zero.mp ht
    subst ht'
    have hu : getUnits [] strat = [] := by cases strat <;> rfl
    have hpt : processText opts none [] = [⟨[], 0, 0, 0, 0⟩] := rfl
    rw [hsplit, hu, hpt] at htiles
    exact absurd htiles (by decide)
  · rw [hsplit] at htiles ⊢
    have hP := processText_members_P opts t strat hstrat ht
    have h := tiles_join (joinerOf strat) (getUnits t strat) (processText opts none t) 0
      hP htiles
    rw [h, List.drop_zero]

/-- Witness for C2 at a concrete input: `"a. b."`, sentence strategy,
`chunkSize = 3`, overlap 0 — the two windows tile the two units and the
round trip holds. -/
theorem C2_roundtrip_tiled_witness :
    joinWith (joinerOf .sentence)
        ((split (.str "a. b.".toList) ⟨3, 0, none, some .sentence⟩).map (·.chunk)) =
      joinWith (joinerOf .sentence) ((getUnits "a. b.".toList .sentence).map (·.unit)) :=
  C2_roundtrip_tiled "a. b.".toList ⟨3, 0, none, some .sentence⟩ .sentence rfl rfl (by decide)

/-! ## C5: adjacent deduplication on the general path -/

/-- The general-path loop never emits two adjacent chunks with the same
text, and its first emission differs from the inherited `lastChunk`. -/
theorem unitLoop_chain (f : List Char → Int) (c ov : Int) (joiner : List Char) (jl : Int)
    (units : List TextUnit) :
    ∀ fuel i lc,
      List.Chain' (fun a b : Chunk => a.chunk ≠ b.chunk)
        (unitLoop fuel f c ov joiner jl units i lc) ∧
      (∀ ch, (unitLoop fuel f c ov joiner jl units i lc).head? = some ch →
        some ch.chunk ≠ lc) := by
  intro fuel
  induction fuel with
  | zero => intro i lc; refine ⟨by simp [unitLoop], fun ch h => by simp [unitLoop] at h⟩
  | succ fuel ih =>
    intro i lc
    simp only [unitLoop]
    by_cases hi : i < units.length
    · rw [if_pos hi]
      rcases hbw : (buildWindow (units.length + 1) f c jl units i [] 0 true).1 with _ | ⟨u0, us⟩
      · simp only [hbw]
        exact ih _ lc
      · simp only [hbw]
        by_cases hg : joinWith joiner ((u0 :: us).map (·.unit)) ≠ [] ∧
          some (joinWith joiner ((u0 :: us).map (·.unit))) ≠ lc
        · rw [if_pos hg]
          constructor
          · rw [List.chain'_cons']
            refine ⟨fun y hy => ?_, (ih _ _).1⟩
            have := (ih _ (some (joinWith joiner ((u0 :: us).map (·.unit))))).2 y hy
            intro hcontra
            exact this (by rw [← hcontra])
          · intro ch hch
            rw [List.head?_cons] at hch
            have : ch = ⟨joinWith joiner ((u0 :: us).map (·.unit)), i, u0.start, _, _⟩ :=
              Option.some_injective _ hch.symm
            rw [this]
            exact hg.2
        · rw [if_neg hg]
          exact ih _ lc
    · rw [if_neg hi]
      refine ⟨by simp, fun ch h => by simp at h⟩

/-- The post-pass preserves adjacent distinctness. -/
theorem popTail_chain (cs : List Chunk)
    (h : List.Chain' (fun a b : Chunk => a.chunk ≠ b.chunk) cs) :
    List.Chain' (fun a b : Chunk => a.chunk ≠ b.chunk) (popTail cs) := by
  unfold popTail
  rcases hrev : cs.reverse with _ | ⟨a, rest⟩
  · simp only [hrev]
    exact h
  · rcases rest with _ | ⟨b, rest'⟩
    · simp only [hrev]
      exact h
    · simp only [hrev]
      split
      · rw [List.dropLast_eq_take]
        exact h.take _
      · exact h

/-- C5 (amended): with a boundary strategy, whenever the general greedy
packing path is taken (not all units fit), no two adjacent emitted chunks
have identical text, whatever the overlap; the fast path performs no such
deduplication (see the counterexample). -/
theorem C5_general_path_dedup (t : List Char) (opts : SplitOptions) (strat : ChunkStrategy)
    (hstrat : opts.chunkStrategy = some strat)
    (hfit : allUnitsFit (getLength opts) opts.chunkSize (getLength opts (joinerOf strat))
      (getUnits t strat) = false) :
    List.Chain' (fun a b : Chunk => a.chunk ≠ b.chunk) (split (.str t) opts) := by
  have hsplit : split (.str t) opts = processText opts none t := iterateChunks_str t opts
  rw [hsplit]
  unfold processText
  by_cases ht : t.length = 0
  · rw [if_pos ht]
    simp
  · rw [if_neg ht, hstrat]
    dsimp only
    rw [if_neg (by rw [hfit]; simp)]
    exact popTail_chain _ (unitLoop_chain (getLength opts) opts.chunkSize opts.chunkOverlap
      (joinerOf strat) (getLength opts (joinerOf strat)) (getUnits t strat)
      ((getUnits t strat).length + 1) 0 none).1

/-- Witness for C5 at a concrete input: `"a. b."`, sentence strategy,
`chunkSize = 3` takes the general path and emits `"a."`, `"b."`. -/
theorem C5_general_path_dedup_witness :
    List.Chain' (fun a b : Chunk => a.chunk ≠ b.chunk)
      (split (.str "a. b.".toList) ⟨3, 1, none, some .sentence⟩) :=
  C5_general_path_dedup "a. b.".toList ⟨3, 1, none, some .sentence⟩ .sentence rfl (by decide)

end LlmChunk
